import Mathlib

/-!
Verification development for the dmhshows scraper repository.

The repository consists of several independent rewrites of one scraper for
the De Montfort Hall "What's On" listing.  Each rewrite extracts event
cards, resolves a heuristic "percent sold" value (`override_pct`) through a
cascade of probes, normalizes dates, deduplicates events and serializes
them.  Below, the pure computational cores of those scripts are embedded as
Lean definitions (browser automation, network and file I O are the
environment; their observable results appear as explicit arguments), and
the specification claims about them are proved or refuted.
-/

/-! ## String helpers

JavaScript `toLowerCase` on the ASCII strings handled by the scraper, and
substring containment as used by `String.prototype.includes`. -/

/-- ASCII lowercase of one character, as `toLowerCase` acts on the scraper's
ASCII status strings. -/
def lowerChar (c : Char) : Char :=
  if 'A' ≤ c ∧ c ≤ 'Z' then Char.ofNat (c.toNat + 32) else c

/-- JavaScript `s.toLowerCase()` for the ASCII strings the scraper handles. -/
def jsToLower (s : String) : String :=
  ⟨s.data.map lowerChar⟩

/-- Does the pattern occur at the head of the text (character lists)? -/
def prefAux : List Char → List Char → Bool
  | _, [] => true
  | [], _ :: _ => false
  | c :: cs, p :: ps => c == p && prefAux cs ps

/-- Does the pattern occur anywhere in the text?  Embeds JavaScript
`text.includes(pattern)`. -/
def subAux (pat : List Char) : List Char → Bool
  | [] => prefAux [] pat
  | c :: cs => prefAux (c :: cs) pat || subAux pat cs

/-- JavaScript `s.includes(pat)`. -/
def strHasSub (s pat : String) : Bool :=
  subAux pat.data s.data

/-! ## Status-text lookup tables

`fallbackPct` is from the first `scrape-dmh.js` variant (lines 15-22);
`statusToPct` is the table shared by the later variants (`statusFallbackPct`,
`statusToPct`, `inferOverridePct`, `statusHeuristicToPct`); both map a card
status string to a percent-sold estimate. -/

/-- Embeds `fallbackPct` of scrape-dmh.js (sold / limited / last / low /
"book now" keywords, default 30). -/
def fallbackPct (statusText : String) : Int :=
  let s := jsToLower statusText
  if strHasSub s "sold" then 100
  else if strHasSub s "limited" then 85
  else if strHasSub s "last" || strHasSub s "low" then 75
  else if strHasSub s "book now" then 48
  else 30

/-- Embeds `statusToPct` of the later variants (adds the "few" keyword and
relaxes "book now" to "book"). -/
def statusToPct (s : String) : Int :=
  let t := jsToLower s
  if strHasSub t "sold" then 100
  else if strHasSub t "limited" then 85
  else if strHasSub t "last" || strHasSub t "few" || strHasSub t "low" then 75
  else if strHasSub t "book" then 48
  else 30

/-! Regex-based status table of the listing-only variants
(`statusToPct` in part_000 / part_003): patterns are word sequences
separated by optional whitespace, mirroring regexes such as
`/sold\s*out/`. -/

/-- Match a sequence of literal words separated by optional whitespace at
the head of the text (embeds a `%\s*`-separated regex alternative). -/
def seqAt : List String → List Char → Bool
  | [], _ => true
  | w :: ws, cs =>
    prefAux cs w.data && seqAt ws ((cs.drop w.length).dropWhile Char.isWhitespace)

/-- Search one word sequence anywhere in the text. -/
def seqSearchOne (seq : List String) : List Char → Bool
  | [] => seqAt seq []
  | c :: cs => seqAt seq (c :: cs) || seqSearchOne seq cs

/-- Does any of the alternative word sequences occur in the string? -/
def strHasSeq (s : String) (alts : List (List String)) : Bool :=
  alts.any (fun seq => seqSearchOne seq s.data)

/-- Embeds `statusToPct` of the listing-only variants (part_000 lines 16-23
and part_003 lines 16-23), which test whitespace-tolerant regexes against
the lowercased label. -/
def statusToPctRegex (label : String) : Int :=
  let s := jsToLower label
  if strHasSeq s [["sold", "out"]] then 100
  else if strHasSeq s [["very", "limited"], ["limited"], ["last", "few"],
      ["last", "remaining"], ["almost", "sold"], ["low", "availability"]] then 92
  else if strHasSeq s [["selling", "fast"], ["best", "availability"]] then 70
  else if strHasSeq s [["book", "now"], ["on", "sale"], ["available"]] then 48
  else 30

/-- Embeds the `LABEL_TO_PCT` scan of the puppeteer variants (part_002
lines 15-20 and 100-101): the first scarcity label found in the page text
yields its banded percentage.  The regex `/final (seats?|tickets?)/` tests
positively exactly when "final seat" or "final ticket" occurs. -/
def labelToPct (pageText : String) : Option Int :=
  let t := jsToLower pageText
  if strHasSub t "last few" || strHasSub t "almost gone" ||
      strHasSub t "final seat" || strHasSub t "final ticket" then some 92
  else if strHasSub t "limited" then some 78
  else if strHasSub t "selling fast" then some 66
  else if strHasSub t "just added" || strHasSub t "new date" then some 55
  else none

/-! ## Seat-count and capacity arithmetic -/

/-- Embeds the tail of `computePctSoldFromTicketsolve` (scrape-dmh.js lines
154-156): `total = available + unavailable; if (!total) return null;
return Math.round((unavailable / total) * 100)`.  The rounded ratio is
rendered exactly over integers: `Math.round(100*u/t) = (200*u + t) / (2*t)`
for naturals with `t > 0`. -/
def computePctSoldFromTicketsolve (available unavailable : Nat) : Option Int :=
  let total := available + unavailable
  if total = 0 then none
  else some (((200 * unavailable + total) / (2 * total) : Nat) : Int)

/-- Embeds the `clamp` helper `(n, a, b) => Math.max(a, Math.min(b, n))`. -/
def clamp (n a b : Int) : Int :=
  max a (min b n)

/-- Exact integer rendering of `Math.round((sold / cap) * 100)` for
integers with `cap > 0`: floor division of `200*sold + cap` by `2*cap`. -/
def jsRound100 (sold cap : Int) : Int :=
  Int.fdiv (200 * sold + cap) (2 * cap)

/-- A capacity / remaining pair found in a JSON payload. -/
structure CapRem where
  capacity : Int
  remaining : Int
deriving DecidableEq

/-- Result of a successful availability probe. -/
structure ProbeOut where
  capacity : Int
  remaining : Int
  sold : Int
  pct : Int
deriving DecidableEq

/-- Embeds the final step of `probeTicketsolveAvailability` (scrape-dmh.js
lines 418-424): given the best capacity / remaining pair sniffed from the
network (the network listening itself is environment), clamp remaining into
`[0, capacity]` and the rounded percentage into `[0, 100]`. -/
def probeTicketsolveAvailability (best : Option CapRem) : Option ProbeOut :=
  match best with
  | none => none
  | some b =>
    if 0 < b.capacity then
      let remaining := clamp b.remaining 0 b.capacity
      let sold := b.capacity - remaining
      let pct := clamp (jsRound100 sold b.capacity) 0 100
      some ⟨b.capacity, remaining, sold, pct⟩
    else none

/-- Embeds `computeTicketsolvePct` (scrape-dmh.js lines 731-749): try the
network sniff result first, fall back to the DOM walk result, and if either
succeeded clamp remaining and the rounded percentage. -/
def computeTicketsolvePct (net dom : Option CapRem) : Option ProbeOut :=
  let res := match net with
    | some r => some r
    | none => dom
  match res with
  | none => none
  | some r =>
    let cap := r.capacity
    let remaining := clamp r.remaining 0 cap
    let sold := cap - remaining
    let pct := clamp (jsRound100 sold cap) 0 100
    some ⟨cap, remaining, sold, pct⟩

/-- Embeds the percentage resolution of the later variants' `main`
(scrape-dmh.js lines 925-934, part_005 lines 512-521): the Ticketsolve
probe result wins when present, otherwise the status table applies. -/
def mainResolvePct (status : String) (probe : Option ProbeOut) : Int :=
  match probe with
  | some r => r.pct
  | none => statusToPct status

/-! ## The per-card pipeline of the first scrape-dmh.js variant -/

/-- A card row extracted from the listing page (scrape-dmh.js lines
161-191). -/
structure Row where
  title : String
  status : String
  bookHref : Option String
deriving DecidableEq

/-- An event as assembled by `run`. -/
structure Ev where
  title : String
  start : Option String
  status : String
  override_pct : Int
deriving DecidableEq

/-- Embeds the body of the per-card loop of `run` (scrape-dmh.js lines
208-241): when the card has a booking link, the probe's observed
`(startISO, pct)` pair applies (a thrown probe leaves whatever was assigned
before the throw, which the argument models); otherwise both stay null.
The event always gets `pct` when the probe produced a finite number, else
`fallbackPct` of the card status. -/
def resolveRow (r : Row) (probeRes : Option String × Option Int) : Ev :=
  let res := match r.bookHref with
    | some _ => probeRes
    | none => ((none : Option String), (none : Option Int))
  { title := r.title
    start := res.1
    status := r.status
    override_pct := match res.2 with
      | some p => p
      | none => fallbackPct r.status }

/-- Embeds the whole per-card loop of `run`: one output event per card. -/
def runOut (rows : List Row) (probe : Row → Option String × Option Int) : List Ev :=
  rows.map (fun r => resolveRow r (probe r))

/-- Embeds the probe value of `run` (scrape-dmh.js lines 223-228): a SOLD
OUT badge on the Ticketsolve page forces 100, otherwise the seat counts of
`computePctSoldFromTicketsolve` apply. -/
def runProbePct (soldBadge : Bool) (available unavailable : Nat) : Option Int :=
  if soldBadge then some 100
  else computePctSoldFromTicketsolve available unavailable

/-- The fully composed per-card resolution of `run`. -/
def runResolve (r : Row) (soldBadge : Bool) (available unavailable : Nat)
    (startISO : Option String) : Ev :=
  resolveRow r (startISO, runProbePct soldBadge available unavailable)

/-! ## Deduplication helpers -/

/-- Worker for `uniqBy`: the JS loop over the array with a `seen` set of
keys. -/
def uniqByAux {α κ : Type} [DecidableEq κ] (keyFn : α → κ) :
    List κ → List α → List α
  | _, [] => []
  | seen, x :: xs =>
    if keyFn x ∈ seen then uniqByAux keyFn seen xs
    else x :: uniqByAux keyFn (keyFn x :: seen) xs

/-- Embeds `uniqBy` of the later variants (scrape-dmh.js lines 526-530,
part_004, part_005): keep an element when its key has not been seen yet. -/
def uniqBy {α κ : Type} [DecidableEq κ] (arr : List α) (keyFn : α → κ) : List α :=
  uniqByAux keyFn [] arr

/-- JS template rendering of a possibly-null start value inside a
backquoted key: `null` prints as the string "null". -/
def startOrNull (o : Option String) : String :=
  match o with
  | some s => s
  | none => "null"

/-- Embeds `dedupe` (part_002 lines 46-57, part_003 lines 213-224) and the
inline dedup of `run` (scrape-dmh.js lines 244-251): key
`title + "__" + (start || "")`. -/
def dedupe (events : List Ev) : List Ev :=
  uniqBy events (fun e => e.title ++ "__" ++ e.start.getD "")

/-- Embeds the final dedup of the second variant's `main` (scrape-dmh.js
line 944): key `title + "|" + start + "|" + status + "|" + override_pct`. -/
def finalDedupMain (out : List Ev) : List Ev :=
  uniqBy out (fun e =>
    e.title ++ "|" ++ startOrNull e.start ++ "|" ++ e.status ++ "|" ++ toString e.override_pct)

/-- Embeds the final dedup of part_004's last variant and part_005
(`uniqBy(out, x => title|start|override_pct)`). -/
def finalDedupP4 (out : List Ev) : List Ev :=
  uniqBy out (fun e =>
    e.title ++ "|" ++ startOrNull e.start ++ "|" ++ toString e.override_pct)

/-! ## Serialized event objects

A small JSON value model, used to state which fields the emitted event
objects carry. -/

/-- JSON values appearing in the serialized events. -/
inductive JVal where
  | jnull : JVal
  | jstr : String → JVal
  | jnum : Int → JVal
deriving DecidableEq

/-- A nullable ISO string field. -/
def jOptStr : Option String → JVal
  | some s => JVal.jstr s
  | none => JVal.jnull

/-- Embeds the object pushed by `run` (scrape-dmh.js lines 236-241):
`{ title, start, status, override_pct }`. -/
def runEventObj (title : String) (startISO : Option String) (status : String)
    (override_pct : Int) : List (String × JVal) :=
  [("title", JVal.jstr title), ("start", jOptStr startISO),
   ("status", JVal.jstr status), ("override_pct", JVal.jnum override_pct)]

/-- Embeds the object pushed by part_001's `run` (lines 267-274):
`{ title, start, status, ...(finite sold_pct ? { sold_pct } : { override_pct }) }`. -/
def p1EventObj (title : String) (start : Option String) (status : String)
    (sold_pct : Option Int) (override_pct : Int) : List (String × JVal) :=
  [("title", JVal.jstr title), ("start", jOptStr start),
   ("status", JVal.jstr status)] ++
    (match sold_pct with
     | some v => [("sold_pct", JVal.jnum v)]
     | none => [("override_pct", JVal.jnum override_pct)])

/-- Embeds the object pushed by the last variant of part_004 (lines
1534-1543): `{ title, start, start_local, tz, status, override_pct }`. -/
def p4EventObj (title : String) (start_utc start_local : Option String)
    (tz : String) (status : String) (override_pct : Int) : List (String × JVal) :=
  [("title", JVal.jstr title), ("start", jOptStr start_utc),
   ("start_local", jOptStr start_local), ("tz", JVal.jstr tz),
   ("status", JVal.jstr status), ("override_pct", JVal.jnum override_pct)]

/-! ## Pagination loops -/

/-- `MAX_PAGES` of scrape-dmh.js line 11 and part_002 line 11. -/
def MAX_PAGES : Nat := 12

/-- Embeds the listing loop of `run` (scrape-dmh.js lines 200-205): fetch
pages `p, p+1, ...` while the fuel (remaining page budget) lasts, stopping
at the first empty batch.  `runPagination` instantiates `p = 1`,
`fuel = MAX_PAGES`. -/
def collectFrom (fetch : Nat → List Row) (p : Nat) : Nat → List Row
  | 0 => []
  | Nat.succ fuel =>
    let batch := fetch p
    if batch.isEmpty then [] else batch ++ collectFrom fetch (p + 1) fuel

/-- Number of listing pages the loop of `run` fetches. -/
def visitsFrom (fetch : Nat → List Row) (p : Nat) : Nat → Nat
  | 0 => 0
  | Nat.succ fuel =>
    if (fetch p).isEmpty then 1 else visitsFrom fetch (p + 1) fuel + 1

/-- All rows collected by the pagination loop of `run`. -/
def runPagination (fetch : Nat → List Row) : List Row :=
  collectFrom fetch 1 MAX_PAGES

/-- Number of listing pages fetched by the pagination loop of `run`. -/
def runPaginationVisits (fetch : Nat → List Row) : Nat :=
  visitsFrom fetch 1 MAX_PAGES

/-- Embeds `paginate` of part_002 (lines 167-192): starting from
`pages = 0`, click "load more" while something clickable is found and
`pages < MAX_PAGES`; the fuel argument is `MAX_PAGES - pages`. -/
def paginateAux (clicked : Nat → Bool) (pages : Nat) : Nat → Nat
  | 0 => pages
  | Nat.succ fuel =>
    if clicked pages then paginateAux clicked (pages + 1) fuel else pages

/-- Number of successful pagination clicks performed by `paginate`. -/
def paginate (clicked : Nat → Bool) : Nat :=
  paginateAux clicked 0 MAX_PAGES

/-! ## UK date/time parsing (`parseUkDateTimeToISO`, scrape-dmh.js 29-64)

The regex
`(?:(?:Mon|Tue|Wed|Thu|Fri|Sat|Sun)(?:day)?)\s+(\d{1,2})\s+([A-Za-z]+)\s+(\d{4}),\s+(\d{1,2}):(\d{2})(?:\s*(AM|PM))?`
is embedded as a hand-rolled matcher over character lists.  Every
character-class boundary in the pattern is disjoint from its follower, so
the greedy scan below (with the one bounded-repetition alternative per
`\d{1,2}` group) accepts exactly the strings the backtracking engine
accepts and produces the same capture groups. -/

/-- Strip a lowercase pattern from the head of text, case-insensitively. -/
def stripCI : List Char → List Char → Option (List Char)
  | cs, [] => some cs
  | [], _ :: _ => none
  | c :: cs, p :: ps => if lowerChar c == p then stripCI cs ps else none

/-- Consume `\s+`: at least one whitespace character, then any further
whitespace (greedy, followed by a non-whitespace class in the pattern). -/
def ws1 : List Char → Option (List Char)
  | c :: rest => if c.isWhitespace then some (rest.dropWhile Char.isWhitespace) else none
  | [] => none

/-- Maximal run of ASCII digits at the head (the capture), and the rest. -/
def digitsRun (cs : List Char) : List Char × List Char :=
  (cs.takeWhile Char.isDigit, cs.dropWhile Char.isDigit)

/-- Maximal run of letters at the head (`[A-Za-z]+`), and the rest. -/
def alphaRun (cs : List Char) : List Char × List Char :=
  (cs.takeWhile Char.isAlpha, cs.dropWhile Char.isAlpha)

/-- Numeric value of a digit run (the JS `parseInt(..., 10)`). -/
def digitsToNat (l : List Char) : Nat :=
  l.foldl (fun a c => a * 10 + (c.toNat - 48)) 0

/-- Capture groups of the UK date/time regex.  `ampm = some true` is PM,
`some false` is AM, `none` means the optional group was absent. -/
structure UkGroups where
  day : Nat
  monName : String
  year : Nat
  hour : Nat
  minute : Nat
  ampm : Option Bool
deriving DecidableEq

/-- Match the part of the pattern after the weekday token:
`\s+(\d{1,2})\s+([A-Za-z]+)\s+(\d{4}),\s+(\d{1,2}):(\d{2})(?:\s*(AM|PM))?`. -/
def matchUkTail (cs0 : List Char) : Option UkGroups :=
  match ws1 cs0 with
  | none => none
  | some cs1 =>
    let dpair := digitsRun cs1
    if dpair.1.length = 0 || 2 < dpair.1.length then none
    else
      match ws1 dpair.2 with
      | none => none
      | some cs2 =>
        let apair := alphaRun cs2
        if apair.1.length = 0 then none
        else
          match ws1 apair.2 with
          | none => none
          | some cs3 =>
            let ypair := digitsRun cs3
            if ypair.1.length ≠ 4 then none
            else
              match ypair.2 with
              | ',' :: cs4 =>
                match ws1 cs4 with
                | none => none
                | some cs5 =>
                  let hpair := digitsRun cs5
                  if hpair.1.length = 0 || 2 < hpair.1.length then none
                  else
                    match hpair.2 with
                    | ':' :: cs6 =>
                      let mins := cs6.take 2
                      if mins.length = 2 && mins.all Char.isDigit then
                        let rest := (cs6.drop 2).dropWhile Char.isWhitespace
                        let ampm : Option Bool :=
                          match stripCI rest "am".data with
                          | some _ => some false
                          | none =>
                            match stripCI rest "pm".data with
                            | some _ => some true
                            | none => none
                        some { day := digitsToNat dpair.1
                               monName := ⟨apair.1.map lowerChar⟩
                               year := digitsToNat ypair.1
                               hour := digitsToNat hpair.1
                               minute := digitsToNat mins
                               ampm := ampm }
                      else none
                    | _ => none
              | _ => none

/-- The weekday alternation `(?:Mon|Tue|Wed|Thu|Fri|Sat|Sun)(?:day)?`: try
each token (they are pairwise non-overlapping), then the optional literal
`day` (with backtracking to the bare token). -/
def tryWeekday (cs : List Char) : List String → Option UkGroups
  | [] => none
  | w :: ws =>
    match stripCI cs w.data with
    | some rest =>
      (match stripCI rest "day".data with
       | some rest2 =>
         match matchUkTail rest2 with
         | some g => some g
         | none => matchUkTail rest
       | none => matchUkTail rest)
      <|> tryWeekday cs ws
    | none => tryWeekday cs ws

/-- The seven weekday tokens of the regex alternation. -/
def weekdayTokens : List String := ["mon", "tue", "wed", "thu", "fri", "sat", "sun"]

/-- Unanchored search: the leftmost position where the pattern matches. -/
def matchUkSearch : List Char → Option UkGroups
  | [] => none
  | c :: cs =>
    match tryWeekday (c :: cs) weekdayTokens with
    | some g => some g
    | none => matchUkSearch cs

/-- Collapse runs of whitespace into single spaces (JS
`input.replace(/\s+/g, " ")`); a `true` flag swallows the run entirely,
which also trims the leading run. -/
def collapseWS : Bool → List Char → List Char
  | _, [] => []
  | prevWS, c :: cs =>
    if c.isWhitespace then
      (if prevWS then [] else [' ']) ++ collapseWS true cs
    else c :: collapseWS false cs

/-- Drop the (single, after collapsing) trailing space: the JS `.trim()`. -/
def dropTrailingWS (l : List Char) : List Char :=
  (l.reverse.dropWhile Char.isWhitespace).reverse

/-- `input.replace(/\s+/g, " ").trim()` of scrape-dmh.js line 31. -/
def squishStr (s : String) : String :=
  ⟨dropTrailingWS (collapseWS true s.data)⟩

/-- The month-name table of scrape-dmh.js lines 47-51 (full names and
three-letter abbreviations, both mapping to 0-based month numbers). -/
def monthsLookup (m : String) : Option Nat :=
  if m = "january" ∨ m = "jan" then some 0
  else if m = "february" ∨ m = "feb" then some 1
  else if m = "march" ∨ m = "mar" then some 2
  else if m = "april" ∨ m = "apr" then some 3
  else if m = "may" then some 4
  else if m = "june" ∨ m = "jun" then some 5
  else if m = "july" ∨ m = "jul" then some 6
  else if m = "august" ∨ m = "aug" then some 7
  else if m = "september" ∨ m = "sep" then some 8
  else if m = "october" ∨ m = "oct" then some 9
  else if m = "november" ∨ m = "nov" then some 10
  else if m = "december" ∨ m = "dec" then some 11
  else none

/-- Days since 1970-01-01 of the civil date `(y, m, d)` with `m` in 1..12;
out-of-range day values roll over exactly as`Date.UTC` normalizes them
(the formula is linear in `d`). -/
def civilDays (y m d : Int) : Int :=
  let yy := if m ≤ 2 then y - 1 else y
  let era := Int.fdiv yy 400
  let yoe := yy - era * 400
  let mp := if 2 < m then m - 3 else m + 9
  let doy := Int.fdiv (153 * mp + 2) 5 + d - 1
  let doe := yoe * 365 + Int.fdiv yoe 4 - Int.fdiv yoe 100 + doy
  era * 146097 + doe - 719468

/-- The UTC instant `Date.UTC(year, month, day, hour, minute, 0)` denotes,
in minutes since the Unix epoch; `month` is 0-based as in JS. -/
def dateUTCminutes (year month day hour minute : Int) : Int :=
  civilDays year (month + 1) day * 1440 + hour * 60 + minute

/-- The AM/PM adjustment of scrape-dmh.js lines 55-58: PM adds 12 to hours
below 12, 12 AM becomes hour 0, otherwise the hour is unchanged. -/
def hourAdjust (ampm : Option Bool) (hour : Nat) : Nat :=
  match ampm with
  | some true => if hour < 12 then hour + 12 else hour
  | some false => if hour = 12 then 0 else hour
  | none => hour

/-- Embeds `parseUkDateTimeToISO` (scrape-dmh.js lines 29-64).  The
returned integer is the UTC instant the produced ISO-8601 string denotes,
in minutes since the Unix epoch; `none` embeds the `null` returns. -/
def parseUkDateTimeToISO (input : String) : Option Int :=
  if input.isEmpty then none
  else
    let str := squishStr input
    match matchUkSearch str.data with
    | none => none
    | some g =>
      match monthsLookup g.monName with
      | none => none
      | some month =>
        some (dateUTCminutes (g.year : Int) (month : Int) (g.day : Int)
          ((hourAdjust g.ampm g.hour : Nat) : Int) (g.minute : Int))

/-! ## JSON payload walkers

A finite JSON-like object graph: object/array nodes are numbered, and
`children` may share targets or form cycles (modelling JS reference
sharing).  `seatKeys n` states that node `n` carries both a seat-ish key
(`seat` / `seatId` / `id` / `x` / `row`) and an availability-ish key
(`available` / `isAvailable` / `status` / `state`), and `seatAvail n` that
its availability value is `true` or matches `/available|free|open/`;
`capRem n` is the `(Number(node[capKey]), Number(node[remKey]))` pair when
the node has both a capacity-matching and a remaining-matching key with
finite numeric values. -/

structure JGraph where
  size : Nat
  children : Fin size → List (Fin size)
  seatKeys : Fin size → Bool
  seatAvail : Fin size → Bool

structure CGraph where
  size : Nat
  children : Fin size → List (Fin size)
  capRem : Fin size → Option (Int × Int)

/-- The recursive `visit` of `summariseSeatPayload` (part_005 lines
228-251, part_004 lines 513-537): every node entering is recorded in
`seen` and never revisited; seat-looking nodes bump `cap` and, when
available, `avail`.  The returned subtype carries the facts that make the
recursion terminate and the counts sound: `seen` only grows, `avail ≤ cap`,
and each counted node corresponds to a distinct newly-seen node. -/
def visitAll (g : JGraph) (seen : Finset (Fin g.size)) (todo : List (Fin g.size)) :
    { r : Finset (Fin g.size) × Nat × Nat //
        seen ⊆ r.1 ∧ r.2.2 ≤ r.2.1 ∧ seen.card + r.2.1 ≤ r.1.card } :=
  match todo with
  | [] => ⟨(seen, 0, 0), by simp⟩
  | n :: rest =>
    if hn : n ∈ seen then
      let r := visitAll g seen rest
      ⟨r.1, r.2⟩
    else
      match h1 : visitAll g (insert n seen) (g.children n) with
      | ⟨(s1, c1, a1), hp1⟩ =>
        match h2 : visitAll g s1 rest with
        | ⟨(s2, c2, a2), hp2⟩ =>
          ⟨(s2, ((if g.seatKeys n then 1 else 0) + c1) + c2,
                ((if g.seatKeys n && g.seatAvail n then 1 else 0) + a1) + a2), by
            obtain ⟨hs1, ha1, hc1⟩ := hp1
            obtain ⟨hs2, ha2, hc2⟩ := hp2
            dsimp only at hs1 ha1 hc1 hs2 ha2 hc2 ⊢
            have hins : seen ⊆ insert n seen := Finset.subset_insert n seen
            have hcard : (insert n seen).card = seen.card + 1 :=
              Finset.card_insert_of_not_mem hn
            refine ⟨hins.trans (hs1.trans hs2), ?_, ?_⟩
            · by_cases hk : g.seatKeys n <;> by_cases hv : g.seatAvail n <;>
                simp [hk, hv] <;> omega
            · by_cases hk : g.seatKeys n <;> simp [hk] <;> omega⟩
termination_by (g.size - seen.card, todo.length)
decreasing_by
  · exact Prod.Lex.right _ (Nat.lt_succ_self _)
  · have h1 : (insert n seen).card = seen.card + 1 := Finset.card_insert_of_not_mem hn
    have h2 : (insert n seen).card ≤ g.size := by
      have := Finset.card_le_univ (insert n seen)
      simpa using this
    exact Prod.Lex.left _ _ (by omega)
  · have hs1 : insert n seen ⊆ s1 := hp1.1
    have hcard : (insert n seen).card = seen.card + 1 := Finset.card_insert_of_not_mem hn
    have hle : (insert n seen).card ≤ s1.card := Finset.card_le_card hs1
    have h2 : (insert n seen).card ≤ g.size := by
      have := Finset.card_le_univ (insert n seen)
      simpa using this
    exact Prod.Lex.left _ _ (by omega)

/-- Embeds `summariseSeatPayload`: DFS from the payload root with a `seen`
set, returning the `(cap, avail)` counts. -/
def summariseSeatPayload (g : JGraph) (root : Fin g.size) : Nat × Nat :=
  (visitAll g ∅ [root]).1.2

/-- The candidate update of `pickCapRem` (scrape-dmh.js lines 563-569):
when the node has a finite capacity / remaining pair with `cap > 0` and
`rem ≥ 0`, keep it if it beats the best capacity so far. -/
def updateBest (best : Option CapRem) (x : Option (Int × Int)) : Option CapRem :=
  match x with
  | some (c, r) =>
    if 0 < c ∧ 0 ≤ r then
      match best with
      | none => some ⟨c, r⟩
      | some b => if b.capacity < c then some ⟨c, r⟩ else some b
    else best
  | none => best

/-- The worklist loop of `pickCapRem` (scrape-dmh.js lines 548-579): pop a
node; skip it if already seen; otherwise mark it seen, fold its candidate
pair into `best` and push its children. -/
def scanCapRem (g : CGraph) (seen : Finset (Fin g.size))
    (todo : List (Fin g.size)) (best : Option CapRem) : Option CapRem :=
  match todo with
  | [] => best
  | n :: rest =>
    if hn : n ∈ seen then scanCapRem g seen rest best
    else scanCapRem g (insert n seen) (g.children n ++ rest) (updateBest best (g.capRem n))
termination_by (g.size - seen.card, todo.length)
decreasing_by
  · exact Prod.Lex.right _ (Nat.lt_succ_self _)
  · have h1 : (insert n seen).card = seen.card + 1 := Finset.card_insert_of_not_mem hn
    have h2 : (insert n seen).card ≤ g.size := by
      have := Finset.card_le_univ (insert n seen)
      simpa using this
    exact Prod.Lex.left _ _ (by omega)

/-- `pickCapRem` run from the payload root. -/
def pickCapRem (g : CGraph) (root : Fin g.size) : Option CapRem :=
  scanCapRem g ∅ [root] none

/-- The candidate collection step of `findCapRemaining` (part_004 lines
79-84): push the node's pair onto the candidate list when it passes the
`cap > 0 && rem >= 0` checks. -/
def appendCandidate (acc : List CapRem) (x : Option (Int × Int)) : List CapRem :=
  match x with
  | some (c, r) => if 0 < c ∧ 0 ≤ r then acc ++ [⟨c, r⟩] else acc
  | none => acc

/-- The worklist loop of `findCapRemaining` (part_004 lines 62-98), which
accumulates every valid candidate pair instead of keeping one best. -/
def scanCandidates (g : CGraph) (seen : Finset (Fin g.size))
    (todo : List (Fin g.size)) (acc : List CapRem) : List CapRem :=
  match todo with
  | [] => acc
  | n :: rest =>
    if hn : n ∈ seen then scanCandidates g seen rest acc
    else scanCandidates g (insert n seen) (g.children n ++ rest)
      (appendCandidate acc (g.capRem n))
termination_by (g.size - seen.card, todo.length)
decreasing_by
  · exact Prod.Lex.right _ (Nat.lt_succ_self _)
  · have h1 : (insert n seen).card = seen.card + 1 := Finset.card_insert_of_not_mem hn
    have h2 : (insert n seen).card ≤ g.size := by
      have := Finset.card_le_univ (insert n seen)
      simpa using this
    exact Prod.Lex.left _ _ (by omega)

/-- The final selection of `findCapRemaining`: sort the candidates by
descending capacity (stably) and take the first, i.e. the earliest
candidate of maximal capacity. -/
def bestByCapacity (l : List CapRem) : Option CapRem :=
  match l with
  | [] => none
  | x :: xs => some (xs.foldl (fun a c => if a.capacity < c.capacity then c else a) x)

/-- Embeds `findCapRemaining` run from the payload root. -/
def findCapRemaining (g : CGraph) (root : Fin g.size) : Option CapRem :=
  bestByCapacity (scanCandidates g ∅ [root] [])

/-! ## Lemmas about the dedup helpers -/

theorem uniqByAux_sublist {α κ : Type} [DecidableEq κ] (keyFn : α → κ) :
    ∀ (seen : List κ) (l : List α), (uniqByAux keyFn seen l).Sublist l := by
  intro seen l
  induction l generalizing seen with
  | nil => simp [uniqByAux]
  | cons x xs ih =>
    simp only [uniqByAux]
    split
    · exact List.Sublist.cons x (ih seen)
    · exact List.Sublist.cons₂ x (ih (keyFn x :: seen))

theorem uniqByAux_keys {α κ : Type} [DecidableEq κ] (keyFn : α → κ) :
    ∀ (seen : List κ) (l : List α),
      ((uniqByAux keyFn seen l).map keyFn).Nodup ∧
      ∀ a ∈ uniqByAux keyFn seen l, keyFn a ∉ seen := by
  intro seen l
  induction l generalizing seen with
  | nil => simp [uniqByAux]
  | cons x xs ih =>
    simp only [uniqByAux]
    split
    · exact ih seen
    · case isFalse hx =>
      obtain ⟨ihn, ihm⟩ := ih (keyFn x :: seen)
      refine ⟨?_, ?_⟩
      · simp only [List.map_cons, List.nodup_cons]
        refine ⟨?_, ihn⟩
        intro hmem
        obtain ⟨a, ha, hk⟩ := List.mem_map.mp hmem
        exact (ihm a ha) (by simp [hk])
      · intro a ha
        rcases List.mem_cons.mp ha with h | h
        · subst h; exact hx
        · have := ihm a h
          simp only [List.mem_cons, not_or] at this
          exact this.2

theorem uniqByAux_id {α κ : Type} [DecidableEq κ] (keyFn : α → κ) :
    ∀ (seen : List κ) (l : List α), (∀ a ∈ l, keyFn a ∉ seen) →
      (l.map keyFn).Nodup → uniqByAux keyFn seen l = l := by
  intro seen l
  induction l generalizing seen with
  | nil => intro _ _; rfl
  | cons x xs ih =>
    intro hns hnd
    simp only [List.map_cons, List.nodup_cons] at hnd
    simp only [uniqByAux]
    rw [if_neg (hns x (List.mem_cons_self x xs))]
    congr 1
    apply ih
    · intro a ha
      simp only [List.mem_cons, not_or]
      refine ⟨?_, hns a (List.mem_cons_of_mem _ ha)⟩
      intro heq
      exact hnd.1 (heq ▸ List.mem_map_of_mem keyFn ha)
    · exact hnd.2

theorem uniqByAux_find {α κ : Type} [DecidableEq κ] (keyFn : α → κ) :
    ∀ (seen : List κ) (l : List α) (k : κ), k ∉ seen →
      (uniqByAux keyFn seen l).find? (fun a => keyFn a == k) =
        l.find? (fun a => keyFn a == k) := by
  intro seen l
  induction l generalizing seen with
  | nil => intro k _; rfl
  | cons x xs ih =>
    intro k hk
    simp only [uniqByAux]
    by_cases hx : keyFn x ∈ seen
    · rw [if_pos hx]
      have hne : keyFn x ≠ k := fun he => hk (he ▸ hx)
      rw [List.find?_cons_of_neg _ (by simpa using hne), ih seen k hk]
    · rw [if_neg hx]
      by_cases hxk : keyFn x = k
      · rw [List.find?_cons_of_pos _ (by simpa using hxk),
          List.find?_cons_of_pos _ (by simpa using hxk)]
      · rw [List.find?_cons_of_neg _ (by simpa using hxk),
          List.find?_cons_of_neg _ (by simpa using hxk)]
        apply ih
        simp only [List.mem_cons, not_or]
        exact ⟨fun he => hxk he.symm, hk⟩

/-! ## Claim C9: uniqBy / dedupe keep the first element per key -/

/-- C9: for every input list and key function, `uniqBy` (and `dedupe`,
which is `uniqBy` at the `(title, start)` key) returns a subsequence of its
input whose keys are pairwise distinct; for each key occurring in the
input, the representative kept is exactly the first input element with that
key; and deduplication is idempotent. -/
theorem C9_uniqBy_first_per_key_idempotent :
    ∀ {α κ : Type} [inst : DecidableEq κ] (arr : List α) (keyFn : α → κ),
      (uniqBy arr keyFn).Sublist arr ∧
      ((uniqBy arr keyFn).map keyFn).Nodup ∧
      (∀ x ∈ arr, (uniqBy arr keyFn).find? (fun a => keyFn a == keyFn x) =
        arr.find? (fun a => keyFn a == keyFn x)) ∧
      (∀ x ∈ arr, ∃ y ∈ uniqBy arr keyFn, keyFn y = keyFn x) ∧
      uniqBy (uniqBy arr keyFn) keyFn = uniqBy arr keyFn := by
  intro α κ inst arr keyFn
  refine ⟨uniqByAux_sublist keyFn [] arr, (uniqByAux_keys keyFn [] arr).1, ?_, ?_, ?_⟩
  · intro x _
    exact uniqByAux_find keyFn [] arr (keyFn x) (List.not_mem_nil _)
  · intro x hx
    have hfind : arr.find? (fun a => keyFn a == keyFn x) ≠ none := by
      intro hnone
      have := List.find?_eq_none.mp hnone x hx
      simp at this
    obtain ⟨y, hy⟩ := Option.ne_none_iff_exists'.mp hfind
    have huniq : (uniqBy arr keyFn).find? (fun a => keyFn a == keyFn x) = some y := by
      rw [uniqBy, uniqByAux_find keyFn [] arr (keyFn x) (List.not_mem_nil _)]
      exact hy
    refine ⟨y, List.mem_of_find?_eq_some huniq, ?_⟩
    have := List.find?_some huniq
    simpa using this
  · exact uniqByAux_id keyFn [] (uniqBy arr keyFn)
      (fun a _ => List.not_mem_nil _) (uniqByAux_keys keyFn [] arr).1

/-- Witness for C9 at a concrete list and key function. -/
theorem C9_witness :
    (uniqBy [(1, 10), (1, 20), (2, 30)] (fun p : Nat × Nat => p.1)).find?
        (fun a => a.1 == 1) =
      List.find? (fun a => a.1 == 1) [(1, 10), (1, 20), (2, 30)] :=
  (C9_uniqBy_first_per_key_idempotent [(1, 10), (1, 20), (2, 30)]
    (fun p : Nat × Nat => p.1)).2.2.1 (1, 20) (by decide)

/-! ## Claim C4: deduplication keyed by (title, start) -/

/-- C4 counterexample: the final dedup of the second scrape-dmh.js
variant's `main` (line 944) keys on title, start, status AND override_pct,
so two events with the same title and the same start but different status
both survive into the output, contradicting the claim that the output
never contains two events with equal (title, start). -/
theorem C4_counterexample_main_dedup :
    (finalDedupMain [⟨"A", none, "X", 30⟩, ⟨"A", none, "Y", 30⟩]).map
        (fun e => (e.title, e.start)) = [("A", none), ("A", none)] := by
  decide

/-- C4 amended: the dedup of the first variant's `run` (scrape-dmh.js lines
244-251) and `dedupe` of the puppeteer variants do key on
`(title, start)`: their output never contains two events with the same
title and the same start.  The later variants (`main` at line 944 and
part_004 line 759) key on `(title, start, status, override_pct)` /
`(title, start, override_pct)` instead, so there the guarantee fails. -/
theorem C4_dedupe_no_duplicate_title_start :
    ∀ events : List Ev, (dedupe events).Pairwise
      (fun a b => ¬(a.title = b.title ∧ a.start = b.start)) := by
  intro events
  have h := (uniqByAux_keys (fun e : Ev => e.title ++ "__" ++ e.start.getD "") [] events).1
  have h2 := List.pairwise_map.mp h
  refine h2.imp ?_
  intro a b hne hab
  exact hne (by rw [hab.1, hab.2])

/-! ## Claim C2: order of the availability strategies -/

/-- C2 counterexample: the claim puts the card-text status first in the
cascade, with the first succeeding strategy supplying the percentage.  On a
card whose text reads "SOLD OUT" (card-text strategy yields 100) but whose
Ticketsolve network probe reports capacity 100 with 63 remaining, the code
of `main` (scrape-dmh.js lines 925-934) assigns the probe's 37, not the
card text's 100: the probes take precedence over the card text. -/
theorem C2_counterexample_card_text_not_first :
    mainResolvePct "SOLD OUT" (computeTicketsolvePct (some ⟨100, 63⟩) none) = 37 ∧
    statusToPct "SOLD OUT" = 100 ∧ (37 : Int) ≠ 100 := by
  decide

/-- C2 amended: for each card the pipeline attempts the third-party probes
first — network-sniffed JSON, then DOM seat counts — and the card-text
status table is the LAST resort, used only when every probe yields nothing;
the percentage assigned is that of the first succeeding probe, else the
status-table value. -/
theorem C2_resolution_order :
    (∀ (c : CapRem) (dom : Option CapRem),
        computeTicketsolvePct (some c) dom = computeTicketsolvePct (some c) none) ∧
    (∀ c : CapRem, computeTicketsolvePct none (some c) = computeTicketsolvePct (some c) none) ∧
    (∀ status : String, computeTicketsolvePct none none = none ∧
        mainResolvePct status none = statusToPct status) ∧
    (∀ (status : String) (r : ProbeOut), mainResolvePct status (some r) = r.pct) := by
  refine ⟨?_, ?_, ?_, ?_⟩
  · intro c dom; rfl
  · intro c; rfl
  · intro status; exact ⟨rfl, rfl⟩
  · intro status r; rfl

/-! ## Claim C5: the shape of the serialized event objects -/

/-- C5 counterexample: the last part_004 variant (lines 1534-1543) emits
six fields — `start_local` and `tz` in addition to the four claimed — so
not every serialized event object has exactly the fields
title / start / status / override_pct. -/
theorem C5_counterexample_extra_fields :
    (p4EventObj "A" none none "Europe/London" "BOOK NOW" 48).map Prod.fst ≠
      ["title", "start", "status", "override_pct"] := by
  decide

/-- C5 amended: events serialized by the first scrape-dmh.js variant carry
exactly the four fields title (a string), start (string or null), status
(a string) and override_pct (a number); part_001 replaces override_pct
with sold_pct when a seat count succeeded; the last part_004 variant adds
start_local and tz. -/
theorem C5_event_object_fields :
    (∀ (t : String) (s : Option String) (st : String) (p : Int),
        (runEventObj t s st p).map Prod.fst = ["title", "start", "status", "override_pct"] ∧
        (runEventObj t s st p).lookup "title" = some (JVal.jstr t) ∧
        (runEventObj t s st p).lookup "status" = some (JVal.jstr st) ∧
        (runEventObj t s st p).lookup "override_pct" = some (JVal.jnum p)) ∧
    (jOptStr none = JVal.jnull ∧ ∀ v, jOptStr (some v) = JVal.jstr v) ∧
    (∀ (t : String) (s : Option String) (st : String) (p : Int),
        (p1EventObj t s st none p).map Prod.fst =
          ["title", "start", "status", "override_pct"]) ∧
    (∀ (t : String) (s : Option String) (st : String) (v p : Int),
        (p1EventObj t s st (some v) p).map Prod.fst =
          ["title", "start", "status", "sold_pct"]) ∧
    (∀ (t : String) (su sl : Option String) (tz st : String) (p : Int),
        (p4EventObj t su sl tz st p).map Prod.fst =
          ["title", "start", "start_local", "tz", "status", "override_pct"]) := by
  refine ⟨?_, ⟨rfl, fun v => rfl⟩, ?_, ?_, ?_⟩
  · intro t s st p
    refine ⟨rfl, ?_, ?_, ?_⟩ <;> simp [runEventObj, List.lookup]
  · intro t s st p; rfl
  · intro t s st v p; rfl
  · intro t su sl tz st p; rfl

/-! ## Claim C1: override_pct always lies in 0..100 -/

theorem fallbackPct_mem (s : String) :
    fallbackPct s ∈ ([100, 85, 75, 48, 30] : List Int) := by
  simp only [fallbackPct]
  repeat' split
  all_goals decide

theorem statusToPct_mem (s : String) :
    statusToPct s ∈ ([100, 85, 75, 48, 30] : List Int) := by
  simp only [statusToPct]
  repeat' split
  all_goals decide

theorem statusToPctRegex_mem (s : String) :
    statusToPctRegex s ∈ ([100, 92, 70, 48, 30] : List Int) := by
  simp only [statusToPctRegex]
  repeat' split
  all_goals decide

theorem fallbackPct_bounds (s : String) : 0 ≤ fallbackPct s ∧ fallbackPct s ≤ 100 := by
  have h := fallbackPct_mem s
  simp only [List.mem_cons, List.not_mem_nil, or_false] at h
  rcases h with h | h | h | h | h <;> rw [h] <;> exact ⟨by decide, by decide⟩

theorem statusToPct_bounds (s : String) : 0 ≤ statusToPct s ∧ statusToPct s ≤ 100 := by
  have h := statusToPct_mem s
  simp only [List.mem_cons, List.not_mem_nil, or_false] at h
  rcases h with h | h | h | h | h <;> rw [h] <;> exact ⟨by decide, by decide⟩

theorem clamp_bounds (n b : Int) (hb : 0 ≤ b) : 0 ≤ clamp n 0 b ∧ clamp n 0 b ≤ b := by
  unfold clamp
  exact ⟨le_max_left 0 _, max_le hb (min_le_left b n)⟩

theorem computePctSold_bounds (a u : Nat) :
    (computePctSoldFromTicketsolve a u).elim True (fun p => 0 ≤ p ∧ p ≤ 100) := by
  simp only [computePctSoldFromTicketsolve]
  split
  · trivial
  · case isFalse h =>
    simp only [Option.elim]
    refine ⟨Int.natCast_nonneg _, ?_⟩
    have h0 : 0 < a + u := Nat.pos_of_ne_zero h
    have hd : (200 * u + (a + u)) / (2 * (a + u)) < 101 := by
      rw [Nat.div_lt_iff_lt_mul (by omega)]
      omega
    exact_mod_cast Nat.lt_succ_iff.mp hd

theorem probeTicketsolveAvailability_bounds (best : Option CapRem) :
    (probeTicketsolveAvailability best).elim True
      (fun r => 0 ≤ r.pct ∧ r.pct ≤ 100 ∧ 0 ≤ r.remaining ∧ r.remaining ≤ r.capacity) := by
  match best with
  | none => trivial
  | some b =>
    simp only [probeTicketsolveAvailability]
    split
    · case isTrue h =>
      simp only [Option.elim]
      obtain ⟨hp0, hp1⟩ := clamp_bounds (jsRound100 (b.capacity - clamp b.remaining 0 b.capacity) b.capacity) 100 (by omega)
      obtain ⟨hr0, hr1⟩ := clamp_bounds b.remaining b.capacity (le_of_lt h)
      exact ⟨hp0, hp1, hr0, hr1⟩
    · trivial

theorem computeTicketsolvePct_bounds (net dom : Option CapRem) :
    (computeTicketsolvePct net dom).elim True (fun r => 0 ≤ r.pct ∧ r.pct ≤ 100) := by
  simp only [computeTicketsolvePct]
  rcases net with _ | c
  · rcases dom with _ | d
    · trivial
    · simp only [Option.elim]
      exact clamp_bounds (jsRound100 (d.capacity - clamp d.remaining 0 d.capacity) d.capacity) 100 (by omega)
  · simp only [Option.elim]
    exact clamp_bounds (jsRound100 (c.capacity - clamp c.remaining 0 c.capacity) c.capacity) 100 (by omega)

theorem runResolve_bounds (r : Row) (soldBadge : Bool) (available unavailable : Nat)
    (startISO : Option String) :
    0 ≤ (runResolve r soldBadge available unavailable startISO).override_pct ∧
    (runResolve r soldBadge available unavailable startISO).override_pct ≤ 100 := by
  rcases r with ⟨title, status, _ | href⟩
  · simpa [runResolve, resolveRow, runProbePct] using fallbackPct_bounds status
  · rcases soldBadge with _ | _
    · rcases hc : computePctSoldFromTicketsolve available unavailable with _ | p
      · simpa [runResolve, resolveRow, runProbePct, hc] using fallbackPct_bounds status
      · have hb := computePctSold_bounds available unavailable
        rw [hc] at hb
        simpa [runResolve, resolveRow, runProbePct, hc] using hb
    · simp [runResolve, resolveRow, runProbePct]

/-- C1: every percentage the pipelines can assign lies in 0..100: the
status tables only yield values from their fixed sets, the seat-count path
rounds a ratio with `0 ≤ unavailable ≤ total`, the capacity/remaining path
clamps remaining into `[0, capacity]` and the rounded percentage into
`[0, 100]`, and the composed per-card resolutions of `run` and `main`
therefore always produce an `override_pct` between 0 and 100 inclusive. -/
theorem C1_override_pct_in_range :
    (∀ s, fallbackPct s ∈ ([100, 85, 75, 48, 30] : List Int)) ∧
    (∀ s, statusToPct s ∈ ([100, 85, 75, 48, 30] : List Int)) ∧
    (∀ s, statusToPctRegex s ∈ ([92, 78, 70, 66, 55, 48, 30, 100, 0] : List Int)) ∧
    (∀ s, (labelToPct s).elim True (fun p => p ∈ ([92, 78, 66, 55] : List Int))) ∧
    (∀ a u, (computePctSoldFromTicketsolve a u).elim True (fun p => 0 ≤ p ∧ p ≤ 100)) ∧
    (∀ best, (probeTicketsolveAvailability best).elim True
      (fun r => 0 ≤ r.pct ∧ r.pct ≤ 100 ∧ 0 ≤ r.remaining ∧ r.remaining ≤ r.capacity)) ∧
    (∀ net dom, (computeTicketsolvePct net dom).elim True (fun r => 0 ≤ r.pct ∧ r.pct ≤ 100)) ∧
    (∀ r soldBadge available unavailable startISO,
      0 ≤ (runResolve r soldBadge available unavailable startISO).override_pct ∧
      (runResolve r soldBadge available unavailable startISO).override_pct ≤ 100) ∧
    (∀ status net dom, 0 ≤ mainResolvePct status (computeTicketsolvePct net dom) ∧
      mainResolvePct status (computeTicketsolvePct net dom) ≤ 100) := by
  refine ⟨fallbackPct_mem, statusToPct_mem, ?_, ?_, computePctSold_bounds,
    probeTicketsolveAvailability_bounds, computeTicketsolvePct_bounds,
    runResolve_bounds, ?_⟩
  · intro s
    have h := statusToPctRegex_mem s
    simp only [List.mem_cons, List.not_mem_nil, or_false] at h
    rcases h with h | h | h | h | h <;> rw [h] <;> decide
  · intro s
    simp only [labelToPct]
    repeat' split
    all_goals first
    | trivial
    | (simp only [Option.elim]; decide)
  · intro status net dom
    have h := computeTicketsolvePct_bounds net dom
    rcases hc : computeTicketsolvePct net dom with _ | r
    · simpa [mainResolvePct, hc] using statusToPct_bounds status
    · rw [hc] at h
      simpa [mainResolvePct] using h

/-! ## Claim C3: unrecognized status strings default to 30 -/

theorem prefAux_append (cs p1 p2 : List Char) :
    prefAux cs (p1 ++ p2) = true → prefAux cs p1 = true := by
  induction p1 generalizing cs with
  | nil => intro _; cases cs <;> rfl
  | cons p ps ih =>
    intro h
    match cs with
    | [] => simp [prefAux] at h
    | c :: cs' =>
      simp only [List.cons_append, prefAux, Bool.and_eq_true] at h ⊢
      exact ⟨h.1, ih cs' h.2⟩

theorem subAux_append (p1 p2 : List Char) :
    ∀ cs, subAux (p1 ++ p2) cs = true → subAux p1 cs = true := by
  intro cs
  induction cs with
  | nil =>
    simp only [subAux]
    exact prefAux_append [] p1 p2
  | cons c cs' ih =>
    simp only [subAux, Bool.or_eq_true]
    rintro (h | h)
    · exact Or.inl (prefAux_append _ p1 p2 h)
    · exact Or.inr (ih h)

theorem strHasSub_book_now (s : String) :
    strHasSub s "book now" = true → strHasSub s "book" = true := by
  intro h
  have : ("book now" : String).data = ("book" : String).data ++ (" now" : String).data := by
    decide
  unfold strHasSub at h ⊢
  rw [this] at h
  exact subAux_append _ _ _ h

/-- C3: when the lowercase status contains none of the keywords sold /
limited / last / low / few / book, both status tables return the default
30, and consequently an event all of whose probes failed gets
`override_pct = 30` in the `run` pipeline and in the `main` resolution. -/
theorem C3_unrecognized_status_defaults_to_30 :
    ∀ s : String,
      strHasSub (jsToLower s) "sold" = false →
      strHasSub (jsToLower s) "limited" = false →
      strHasSub (jsToLower s) "last" = false →
      strHasSub (jsToLower s) "low" = false →
      strHasSub (jsToLower s) "few" = false →
      strHasSub (jsToLower s) "book" = false →
      fallbackPct s = 30 ∧ statusToPct s = 30 ∧
      (∀ (title : String) (href : Option String) (probeStart : Option String),
        (resolveRow ⟨title, s, href⟩ (probeStart, none)).override_pct = 30) ∧
      mainResolvePct s none = 30 := by
  intro s hsold hlimited hlast hlow hfew hbook
  have hbooknow : strHasSub (jsToLower s) "book now" = false := by
    rcases hb : strHasSub (jsToLower s) "book now" with _ | _
    · rfl
    · rw [strHasSub_book_now (jsToLower s) hb] at hbook
      exact hbook
  have hf : fallbackPct s = 30 := by
    simp [fallbackPct, hsold, hlimited, hlast, hlow, hbooknow]
  have hs : statusToPct s = 30 := by
    simp [statusToPct, hsold, hlimited, hlast, hlow, hfew, hbook]
  refine ⟨hf, hs, ?_, ?_⟩
  · intro title href probeStart
    rcases href with _ | href <;> simp [resolveRow, hf]
  · simp [mainResolvePct, hs]

/-- Witness for C3: the status "More info" contains no recognized keyword,
so an event that every probe failed for is emitted with `override_pct`
30. -/
theorem C3_witness :
    fallbackPct "More info" = 30 ∧ statusToPct "More info" = 30 ∧
    (∀ (title : String) (href : Option String) (probeStart : Option String),
      (resolveRow ⟨title, "More info", href⟩ (probeStart, none)).override_pct = 30) ∧
    mainResolvePct "More info" none = 30 :=
  C3_unrecognized_status_defaults_to_30 "More info" (by decide) (by decide)
    (by decide) (by decide) (by decide) (by decide)

/-! ## Claim C6: the UK date/time normalizer -/

/-- C6: `parseUkDateTimeToISO` either returns `none` — exactly when the
input is empty, the whitespace-normalized input nowhere matches the
`Weekday D Month YYYY, HH:MM (AM|PM)?` pattern, or the matched month name
is unknown — or returns the UTC instant assembled by `Date.UTC` from the
matched day, month, year, adjusted hour and minute, where the adjustment
adds 12 to PM hours below 12 and maps 12 AM to hour 0. -/
theorem C6_parseUkDateTimeToISO_spec :
    (∀ s : String,
      (parseUkDateTimeToISO s = none ∧
        (s.isEmpty = true ∨ matchUkSearch (squishStr s).data = none ∨
          ∃ g, matchUkSearch (squishStr s).data = some g ∧
            monthsLookup g.monName = none)) ∨
      (∃ g month, matchUkSearch (squishStr s).data = some g ∧
        monthsLookup g.monName = some month ∧
        parseUkDateTimeToISO s = some (dateUTCminutes (g.year : Int) (month : Int)
          (g.day : Int) ((hourAdjust g.ampm g.hour : Nat) : Int) (g.minute : Int)))) ∧
    (∀ h : Nat, h < 12 → hourAdjust (some true) h = h + 12) ∧
    (∀ h : Nat, 12 ≤ h → hourAdjust (some true) h = h) ∧
    (hourAdjust (some false) 12 = 0) ∧
    (∀ h : Nat, h ≠ 12 → hourAdjust (some false) h = h) ∧
    (∀ h : Nat, hourAdjust none h = h) := by
  refine ⟨?_, ?_, ?_, rfl, ?_, fun h => rfl⟩
  · intro s
    by_cases hemp : s.isEmpty
    · left
      exact ⟨by simp [parseUkDateTimeToISO, hemp], Or.inl hemp⟩
    · rcases hm : matchUkSearch (squishStr s).data with _ | g
      · left
        exact ⟨by simp [parseUkDateTimeToISO, hemp, hm], Or.inr (Or.inl rfl)⟩
      · rcases hmo : monthsLookup g.monName with _ | month
        · left
          exact ⟨by simp [parseUkDateTimeToISO, hemp, hm, hmo],
            Or.inr (Or.inr ⟨g, rfl, hmo⟩)⟩
        · right
          exact ⟨g, month, rfl, hmo, by simp [parseUkDateTimeToISO, hemp, hm, hmo]⟩
  · intro h hlt
    simp [hourAdjust, hlt]
  · intro h hge
    simp [hourAdjust, Nat.not_lt.mpr hge]
  · intro h hne
    simp [hourAdjust, hne]

/-- Witness for C6: "Friday 3 October 2025, 19:30" parses to the instant
2025-10-03T19:30Z (29325330 minutes after the Unix epoch), and the
hour-adjustment hypotheses hold at 7 PM and 12 AM. -/
theorem C6_witness :
    (parseUkDateTimeToISO "Friday 3 October 2025, 19:30" =
      some 29325330 ∨ False) ∧
    hourAdjust (some true) 7 = 19 ∧ hourAdjust (some false) 12 = 0 := by
  refine ⟨?_, C6_parseUkDateTimeToISO_spec.2.1 7 (by decide),
    C6_parseUkDateTimeToISO_spec.2.2.2.1⟩
  rcases C6_parseUkDateTimeToISO_spec.1 "Friday 3 October 2025, 19:30" with h | h
  · exfalso
    rcases h with ⟨_, hor⟩
    rcases hor with hbad | hbad | ⟨g, hg, hmo⟩
    · exact absurd hbad (by decide)
    · exact absurd hbad (by decide)
    · rw [show matchUkSearch (squishStr "Friday 3 October 2025, 19:30").data =
          some ⟨3, "october", 2025, 19, 30, none⟩ by decide] at hg
      obtain rfl := Option.some.inj hg
      exact absurd hmo (by decide)
  · rcases h with ⟨g, month, hg, hmo, hval⟩
    left
    rw [show matchUkSearch (squishStr "Friday 3 October 2025, 19:30").data =
        some ⟨3, "october", 2025, 19, 30, none⟩ by decide] at hg
    obtain rfl := Option.some.inj hg
    have h9 : monthsLookup ((⟨3, "october", 2025, 19, 30, none⟩ : UkGroups).monName) =
        some 9 := by decide
    rw [h9] at hmo
    obtain rfl := (Option.some.inj hmo).symm
    rw [hval]
    decide

/-! ## Claim C7: probe failures never drop or corrupt events -/

/-- C7: the per-card loop of `run` emits exactly one event per card, the
event at position i depends only on card i and its own probe outcome, and a
card whose probe threw or produced no percentage is still emitted with its
title and status intact and `override_pct` taken from the card status via
`fallbackPct`. -/
theorem C7_probe_failure_keeps_event :
    ∀ (rows : List Row) (probe : Row → Option String × Option Int),
      (runOut rows probe).length = rows.length ∧
      (∀ (i : Nat) (r : Row), rows[i]? = some r →
        (runOut rows probe)[i]? = some (resolveRow r (probe r))) ∧
      (∀ (r : Row) (probeStart : Option String),
        (resolveRow r (probeStart, none)).title = r.title ∧
        (resolveRow r (probeStart, none)).status = r.status ∧
        (resolveRow r (probeStart, none)).override_pct = fallbackPct r.status) ∧
      (∀ (probe2 : Row → Option String × Option Int) (i : Nat) (r : Row),
        rows[i]? = some r → probe r = probe2 r →
        (runOut rows probe)[i]? = (runOut rows probe2)[i]?) := by
  intro rows probe
  refine ⟨by simp [runOut], ?_, ?_, ?_⟩
  · intro i r hr
    simp [runOut, hr]
  · intro r probeStart
    rcases r with ⟨title, status, _ | href⟩ <;> simp [resolveRow]
  · intro probe2 i r hr heq
    simp [runOut, hr, heq]

/-- Witness for C7: a concrete two-card run where the second card's probe
fails; both events are emitted and the second falls back to its card
status. -/
theorem C7_witness :
    (runOut [⟨"A", "BOOK NOW", some "u"⟩, ⟨"B", "More info", some "v"⟩]
        (fun r => if r.title = "A" then (some "2025", some 40) else (none, none)))[1]? =
      some (resolveRow ⟨"B", "More info", some "v"⟩ (none, none)) := by
  have h := (C7_probe_failure_keeps_event
    [⟨"A", "BOOK NOW", some "u"⟩, ⟨"B", "More info", some "v"⟩]
    (fun r => if r.title = "A" then (some "2025", some 40) else (none, none))).2.1
    1 ⟨"B", "More info", some "v"⟩ (by decide)
  simpa using h

/-! ## Claim C8: bounded pagination -/

theorem visitsFrom_le (fetch : Nat → List Row) :
    ∀ (fuel p : Nat), visitsFrom fetch p fuel ≤ fuel := by
  intro fuel
  induction fuel with
  | zero => intro p; simp [visitsFrom]
  | succ f ih =>
    intro p
    simp only [visitsFrom]
    split
    · omega
    · have := ih (p + 1)
      omega

theorem visitsFrom_first_empty (fetch : Nat → List Row) :
    ∀ (fuel p k : Nat), k < fuel →
      (∀ j, j < k → (fetch (p + j)).isEmpty = false) →
      (fetch (p + k)).isEmpty = true →
      visitsFrom fetch p fuel = k + 1 := by
  intro fuel
  induction fuel with
  | zero => intro p k hk; omega
  | succ f ih =>
    intro p k hk hne he
    match k with
    | 0 =>
      simp only [visitsFrom]
      rw [if_pos (by simpa using he)]
    | Nat.succ m =>
      have h0 : (fetch p).isEmpty = false := by
        have := hne 0 (by omega)
        simpa using this
      simp only [visitsFrom]
      rw [if_neg (by simp [h0])]
      have := ih (p + 1) m (by omega)
        (fun j hj => by
          have := hne (j + 1) (by omega)
          simpa [Nat.add_assoc, Nat.add_comm 1 j] using this)
        (by simpa [Nat.add_assoc, Nat.add_comm 1 m] using he)
      omega

theorem paginateAux_le (clicked : Nat → Bool) :
    ∀ (fuel pages : Nat), paginateAux clicked pages fuel ≤ pages + fuel := by
  intro fuel
  induction fuel with
  | zero => intro pages; simp [paginateAux]
  | succ f ih =>
    intro pages
    simp only [paginateAux]
    split
    · have := ih (pages + 1)
      omega
    · omega

/-- C8: the listing loop of `run` fetches at most `MAX_PAGES = 12` listing
pages and stops at the first page that yields zero cards (fetching `k + 1`
pages when page `k + 1` is the first empty one); the load-more loop of
part_002's `paginate` likewise performs at most `MAX_PAGES` clicks.  Both
loops are total functions, so pagination discovery terminates after a
bounded number of fetches. -/
theorem C8_pagination_bounded :
    (∀ fetch, runPaginationVisits fetch ≤ MAX_PAGES) ∧
    (∀ fetch (k : Nat), k < MAX_PAGES →
      (∀ j, j < k → (fetch (1 + j)).isEmpty = false) →
      (fetch (1 + k)).isEmpty = true →
      runPaginationVisits fetch = k + 1) ∧
    (∀ clicked, paginate clicked ≤ MAX_PAGES) := by
  refine ⟨?_, ?_, ?_⟩
  · intro fetch
    exact visitsFrom_le fetch MAX_PAGES 1
  · intro fetch k hk hne he
    exact visitsFrom_first_empty fetch MAX_PAGES 1 k hk hne he
  · intro clicked
    have := paginateAux_le clicked MAX_PAGES 0
    simpa [paginate] using this

/-- Witness for C8: with pages 1 and 2 non-empty and page 3 empty, the loop
fetches exactly 3 pages. -/
theorem C8_witness :
    runPaginationVisits
      (fun p => if p < 3 then [⟨"t", "s", none⟩] else []) = 2 + 1 :=
  C8_pagination_bounded.2.1 (fun p => if p < 3 then [⟨"t", "s", none⟩] else [])
    2 (by decide) (fun j hj => by interval_cases j <;> decide) (by decide)

/-! ## Claim C10: payload walkers terminate and count soundly -/

/-- Validity of a candidate option: the checks `cap > 0 && rem >= 0`
performed before a pair is admitted. -/
def validCapRem (o : Option CapRem) : Prop :=
  ∀ b : CapRem, o = some b → 0 < b.capacity ∧ 0 ≤ b.remaining

theorem updateBest_valid (best : Option CapRem) (x : Option (Int × Int)) :
    validCapRem best → validCapRem (updateBest best x) := by
  intro hb
  rcases x with _ | ⟨c, r⟩
  · exact hb
  · by_cases hcr : 0 < c ∧ 0 ≤ r
    · rcases best with _ | b
      · simp only [updateBest, if_pos hcr]
        intro b2 hb2
        obtain rfl := Option.some.inj hb2
        exact hcr
      · simp only [updateBest, if_pos hcr]
        by_cases hlt : b.capacity < c
        · rw [if_pos hlt]
          intro b2 hb2
          obtain rfl := Option.some.inj hb2
          exact hcr
        · rw [if_neg hlt]
          intro b2 hb2
          obtain rfl := Option.some.inj hb2
          exact hb _ rfl
    · simp only [updateBest, if_neg hcr]
      exact hb

theorem scanCapRem_valid (g : CGraph) :
    ∀ (seen : Finset (Fin g.size)) (todo : List (Fin g.size)) (best : Option CapRem),
      validCapRem best → validCapRem (scanCapRem g seen todo best) := by
  intro seen todo best
  induction seen, todo, best using scanCapRem.induct g with
  | case1 seen best => intro h; simpa [scanCapRem] using h
  | case2 seen best n rest hn ih =>
    intro h
    rw [scanCapRem]
    simp only [dif_pos hn]
    exact ih h
  | case3 seen best n rest hn ih =>
    intro h
    rw [scanCapRem]
    simp only [dif_neg hn]
    exact ih (updateBest_valid best (g.capRem n) h)

theorem scanCandidates_valid (g : CGraph) :
    ∀ (seen : Finset (Fin g.size)) (todo : List (Fin g.size)) (acc : List CapRem),
      (∀ b ∈ acc, 0 < b.capacity ∧ 0 ≤ b.remaining) →
      ∀ b ∈ scanCandidates g seen todo acc, 0 < b.capacity ∧ 0 ≤ b.remaining := by
  intro seen todo acc
  induction seen, todo, acc using scanCandidates.induct g with
  | case1 seen acc => intro h; simpa [scanCandidates] using h
  | case2 seen acc n rest hn ih =>
    intro h
    rw [scanCandidates]
    simp only [dif_pos hn]
    exact ih h
  | case3 seen acc n rest hn ih =>
    intro h
    rw [scanCandidates]
    simp only [dif_neg hn]
    apply ih
    intro b hb
    rcases hcx : g.capRem n with _ | ⟨c, r⟩
    · rw [hcx] at hb
      exact h b hb
    · rw [hcx] at hb
      simp only [appendCandidate] at hb
      by_cases hcr : 0 < c ∧ 0 ≤ r
      · rw [if_pos hcr] at hb
        rcases List.mem_append.mp hb with hmem | hmem
        · exact h b hmem
        · obtain rfl := List.mem_singleton.mp hmem
          exact hcr
      · rw [if_neg hcr] at hb
        exact h b hb

theorem bestByCapacity_valid (l : List CapRem)
    (hl : ∀ b ∈ l, 0 < b.capacity ∧ 0 ≤ b.remaining) :
    ∀ b : CapRem, bestByCapacity l = some b → 0 < b.capacity ∧ 0 ≤ b.remaining := by
  rcases l with _ | ⟨x, xs⟩
  · intro b hb; simp [bestByCapacity] at hb
  · intro b hb
    simp only [bestByCapacity] at hb
    obtain rfl := Option.some.inj hb
    have hgen : ∀ (ys : List CapRem) (a : CapRem),
        (0 < a.capacity ∧ 0 ≤ a.remaining) →
        (∀ y ∈ ys, 0 < y.capacity ∧ 0 ≤ y.remaining) →
        0 < (ys.foldl (fun a c => if a.capacity < c.capacity then c else a) a).capacity ∧
        0 ≤ (ys.foldl (fun a c => if a.capacity < c.capacity then c else a) a).remaining := by
      intro ys
      induction ys with
      | nil => intro a ha _; exact ha
      | cons y ys ih =>
        intro a ha hys
        simp only [List.foldl_cons]
        apply ih
        · split
          · exact hys y (List.mem_cons_self y ys)
          · exact ha
        · intro z hz
          exact hys z (List.mem_cons_of_mem y hz)
    exact hgen xs x (hl x (List.mem_cons_self x xs))
      (fun y hy => hl y (List.mem_cons_of_mem x hy))

/-- C10: the payload walkers are total functions on arbitrary finite object
graphs (including shared and cyclic references) because every visited node
enters the `seen` set and is never revisited — witnessed by the `cap` count
never exceeding the number of nodes; `summariseSeatPayload` always returns
counts with `avail ≤ cap`, and any pair `pickCapRem` / `findCapRemaining`
return passed the `capacity > 0` and `remaining ≥ 0` admission checks. -/
theorem C10_payload_walkers_terminate_and_bound :
    (∀ (g : JGraph) (root : Fin g.size),
      (summariseSeatPayload g root).2 ≤ (summariseSeatPayload g root).1 ∧
      (summariseSeatPayload g root).1 ≤ g.size) ∧
    (∀ (g : CGraph) (root : Fin g.size),
      validCapRem (pickCapRem g root)) ∧
    (∀ (g : CGraph) (root : Fin g.size) (b : CapRem),
      findCapRemaining g root = some b → 0 < b.capacity ∧ 0 ≤ b.remaining) := by
  refine ⟨?_, ?_, ?_⟩
  · intro g root
    obtain ⟨hsub, hav, hc⟩ := (visitAll g ∅ [root]).2
    have hcard : (visitAll g ∅ [root]).1.1.card ≤ g.size := by
      have := Finset.card_le_univ (visitAll g ∅ [root]).1.1
      simpa using this
    simp only [summariseSeatPayload]
    constructor
    · exact hav
    · simp only [Finset.card_empty, Nat.zero_add] at hc
      omega
  · intro g root
    exact scanCapRem_valid g ∅ [root] none (fun b hb => by simp at hb)
  · intro g root
    exact bestByCapacity_valid _ (scanCandidates_valid g ∅ [root] [] (by simp))

theorem scanCandidates_nil (g : CGraph) (seen : Finset (Fin g.size)) (acc : List CapRem) :
    scanCandidates g seen [] acc = acc := by
  rw [scanCandidates]

/-- A one-node payload graph carrying a capacity 5 / remaining 2 pair. -/
def cg1 : CGraph := ⟨1, fun _ => [], fun _ => some (5, 2)⟩

/-- The root of `cg1`. -/
def cg1root : Fin cg1.size := ⟨0, by decide⟩

theorem cg1_eval : findCapRemaining cg1 cg1root = some ⟨5, 2⟩ := by
  rw [findCapRemaining, scanCandidates]
  rw [dif_neg (Finset.not_mem_empty cg1root)]
  rw [show cg1.children cg1root ++ ([] : List (Fin cg1.size)) = [] from rfl]
  rw [scanCandidates_nil]
  rfl

/-- Witness for C10: on the concrete one-node graph `cg1`,
`findCapRemaining` returns the pair (5, 2), which passes the admission
checks. -/
theorem C10_witness :
    0 < (⟨5, 2⟩ : CapRem).capacity ∧ 0 ≤ (⟨5, 2⟩ : CapRem).remaining :=
  C10_payload_walkers_terminate_and_bound.2.2 cg1 cg1root ⟨5, 2⟩ cg1_eval
